import Mathlib

/-!
# Verification of the `mlib` scalar math library

A shallow embedding of `src/versions/mlib.py` (a from-scratch Python math
library) and proofs about the claims C1..C10.

Modelling conventions:

* A Python float value is modelled by `mlib.PVal`: either an exact rational
  (`num q`) or one of the IEEE special values `inf`, `ninf`, `nan`.  Finite
  float arithmetic is modelled exactly over `ℚ` (rounding is ignored except
  where a claim is specifically about double-precision rounding, for which
  a separate `fl64` rounding model is provided).
* Python exceptions are modelled with `Except mlib.Err`:  `ZeroDivisionError`
  (raised by `x / y` whenever the denominator is the number `0`, which in
  Python happens even for `0.0 / 0.0`) is `Err.divByZero`; a failed `assert`
  is `Err.assertFail`; `struct.error` and `OverflowError` raised by
  `struct.pack` get their own tags.
* Decimal literals of the source are written as exact fractions
  (`3.1415926535897932` becomes `31415926535897932 / 10^16`), which is the
  same rational number.
* `while` loops are modelled by well-founded recursion where they provably
  terminate; the one loop whose termination bound is astronomically large
  (the `ln` series loop, up to `10^15` iterations) gets explicit fuel that
  dominates that bound.
-/

namespace mlib

/-- Python exceptions that the library can raise. -/
inductive Err where
  | divByZero   -- ZeroDivisionError
  | assertFail  -- AssertionError
  | structRange -- struct.error (int out of range for '>l')
  | overflowBits -- OverflowError (float too large for '>f')
  deriving DecidableEq, Repr

/-- A Python float: an exact rational, or one of the IEEE special values. -/
inductive PVal where
  | num (q : ℚ)
  | inf
  | ninf
  | nan
  deriving DecidableEq, Repr

/-- Python `==` on floats: `nan` is equal to nothing (including itself). -/
def pveq : PVal → PVal → Bool
  | .num a, .num b => a = b
  | .inf, .inf => true
  | .ninf, .ninf => true
  | _, _ => false

/-- Python `!=` on floats. -/
def pvne (a b : PVal) : Bool := !(pveq a b)

/-- Python `<` on floats: every comparison involving `nan` is false. -/
def pvlt : PVal → PVal → Bool
  | .num a, .num b => a < b
  | .num _, .inf => true
  | .ninf, .num _ => true
  | .ninf, .inf => true
  | _, _ => false

/-- Python `<=` on floats. -/
def pvle (a b : PVal) : Bool := pvlt a b || pveq a b

/-- Python `>` on floats. -/
def pvgt (a b : PVal) : Bool := pvlt b a

/-- Python `>=` on floats. -/
def pvge (a b : PVal) : Bool := pvle b a

/-- Python `+` on floats (no exceptions; `inf + -inf = nan`). -/
def pvadd : PVal → PVal → PVal
  | .num a, .num b => .num (a + b)
  | .num _, .inf => .inf
  | .inf, .num _ => .inf
  | .inf, .inf => .inf
  | .num _, .ninf => .ninf
  | .ninf, .num _ => .ninf
  | .ninf, .ninf => .ninf
  | _, _ => .nan

/-- Python `-` on floats. -/
def pvsub : PVal → PVal → PVal
  | .num a, .num b => .num (a - b)
  | .num _, .inf => .ninf
  | .inf, .num _ => .inf
  | .inf, .ninf => .inf
  | .num _, .ninf => .inf
  | .ninf, .num _ => .ninf
  | .ninf, .inf => .ninf
  | _, _ => .nan

/-- Python `*` on floats (`inf * 0 = nan`). -/
def pvmul : PVal → PVal → PVal
  | .num a, .num b => .num (a * b)
  | .num a, .inf => if a = 0 then .nan else if a < 0 then .ninf else .inf
  | .inf, .num a => if a = 0 then .nan else if a < 0 then .ninf else .inf
  | .num a, .ninf => if a = 0 then .nan else if a < 0 then .inf else .ninf
  | .ninf, .num a => if a = 0 then .nan else if a < 0 then .inf else .ninf
  | .inf, .inf => .inf
  | .ninf, .ninf => .inf
  | .inf, .ninf => .ninf
  | .ninf, .inf => .ninf
  | _, _ => .nan

/-- Python `/` on floats: raises `ZeroDivisionError` whenever the
denominator is the number `0` (in Python even `0.0/0.0` and `inf/0.0`
raise rather than producing a special value). -/
def pvdiv (a b : PVal) : Except Err PVal :=
  match b with
  | .num q =>
    if q = 0 then .error .divByZero else
    match a with
    | .num p => .ok (.num (p / q))
    | .inf => .ok (if q < 0 then .ninf else .inf)
    | .ninf => .ok (if q < 0 then .inf else .ninf)
    | .nan => .ok .nan
  | .inf =>
    match a with
    | .num _ => .ok (.num 0)
    | _ => .ok .nan
  | .ninf =>
    match a with
    | .num _ => .ok (.num 0)
    | _ => .ok .nan
  | .nan => .ok .nan

/-- Python `assert b`: raises `AssertionError` when `b` is false. -/
def pyassert (b : Bool) : Except Err Unit :=
  if b then .ok () else .error .assertFail

/-- Python `int(q)` on a float: truncation toward zero. -/
def pyint (q : ℚ) : ℤ := if q < 0 then ⌈q⌉ else ⌊q⌋

-- The module-level constants (decimal literals written as exact fractions).

def PI : ℚ := 31415926535897932 / 10^16
def TAU : ℚ := 62831853071795864 / 10^16
def E : ℚ := 27182818284590452 / 10^16
def PHI : ℚ := 16180339887498948 / 10^16
def LN2 : ℚ := 6931471805599453 / 10^16
def LN10 : ℚ := 23025850929940457 / 10^16
def LOG2E : ℚ := 14426950408889634 / 10^16
def LOG10E : ℚ := 4342944819032518 / 10^16
def EULER : ℚ := 5772156649015329 / 10^16
def CATALAN : ℚ := 9159655941772190 / 10^16

/-- `def is_infinite(a): return a / a != a / a` -/
def is_infinite (a : PVal) : Except Err Bool := do
  let x ← pvdiv a a
  let y ← pvdiv a a
  pure (pvne x y)

/-- `def is_nan(a): return a != a` -/
def is_nan (a : PVal) : Except Err Bool :=
  pure (pvne a a)

/-- `def is_finite(a): return not is_infinite(a) and not is_nan(a)`
(`and` short-circuits, so `is_nan` is only evaluated when
`is_infinite(a)` is false). -/
def is_finite (a : PVal) : Except Err Bool := do
  let i ← is_infinite a
  if i then pure false
  else do
    let n ← is_nan a
    pure (!n)

/-- Python float division restricted to finite (rational) operands. -/
def pydiv (a b : ℚ) : Except Err ℚ :=
  if b = 0 then .error .divByZero else .ok (a / b)

/-- `def abs(a): assert is_finite(a); return -a if a < 0 else a` -/
def abs (a : PVal) : Except Err PVal := do
  let f ← is_finite a
  pyassert f
  match a with
  | .num q => pure (.num (if q < 0 then -q else q))
  | _ => .error .assertFail  -- unreachable: the finiteness assert has already thrown

/-- `def to_radian(deg): assert is_finite(deg); return deg * (PI / 180)` -/
def to_radian (deg : PVal) : Except Err PVal := do
  let f ← is_finite deg
  pyassert f
  match deg with
  | .num q => pure (.num (q * (PI / 180)))
  | _ => .error .assertFail  -- unreachable

/-- The body of `sqrt`'s Newton loop:
`for i in range(1, 18): b = root = (b + (a / b)) / 2`,
modelled with an iteration count (17). -/
def sqrtLoop (a : ℚ) : ℕ → ℚ → Except Err ℚ
  | 0, b => .ok b
  | n + 1, b => do
    let d ← pydiv a b
    sqrtLoop a n ((b + d) / 2)

/-- `def sqrt(a): assert is_finite(a) and a >= 0; if a == 0: return 0; ...` -/
def sqrt (a : PVal) : Except Err PVal := do
  let f ← is_finite a
  pyassert (f && pvge a (.num 0))
  match a with
  | .num q =>
    if q = 0 then pure (.num 0)
    else Except.map .num (sqrtLoop q 17 q)
  | _ => .error .assertFail  -- unreachable

/-- `def isqrt(a): assert is_finite(a); return 1 / sqrt(a)` -/
def isqrt (a : PVal) : Except Err PVal := do
  let f ← is_finite a
  pyassert f
  let s ← sqrt a
  pvdiv (.num 1) s

/-- The Euclidean loop of `gcd` (entered with non-negative arguments). -/
def gcdLoop (a b : ℤ) : ℤ :=
  if h : b ≠ 0 then gcdLoop b (a % b) else a
termination_by b.natAbs
decreasing_by
  rcases lt_or_gt_of_ne h with hb | hb
  · have h1 : 0 ≤ a % b := Int.emod_nonneg a h
    have h2 : a % (-b) < -b := Int.emod_lt_of_pos a (by omega)
    have h3 : a % (-b) = a % b := Int.emod_neg a b
    omega
  · have h1 : 0 ≤ a % b := Int.emod_nonneg a h
    have h2 : a % b < b := Int.emod_lt_of_pos a hb
    omega

/-- `def gcd(a, b)`: asserts finiteness of both arguments (`and`
short-circuits), takes absolute values, runs the Euclidean loop. -/
def gcd (a b : ℤ) : Except Err ℤ := do
  let f1 ← is_finite (.num (a : ℚ))
  let f2 ← if f1 then is_finite (.num (b : ℚ)) else pure false
  pyassert (f1 && f2)
  let a2 := if a < 0 then -a else a
  let b2 := if b < 0 then -b else b
  pure (gcdLoop a2 b2)

/-- The body of `pow`'s loop: `for i in range(1, power): product *= base`,
which runs `max(power - 1, 0)` times. -/
def powLoop (q : ℚ) : ℕ → ℚ → ℚ
  | 0, p => p
  | n + 1, p => powLoop q n (p * q)

/-- `def pow(base, power)`: asserts finiteness of both arguments, returns 1
for `power == 0`, otherwise starts from `product = base` and multiplies
`power - 1` more times (an empty loop when `power < 1`). -/
def pow (base : PVal) (power : ℤ) : Except Err PVal := do
  let f1 ← is_finite base
  let f2 ← if f1 then is_finite (.num (power : ℚ)) else pure false
  pyassert (f1 && f2)
  if power = 0 then pure (.num 1)  -- unreachable: is_finite(0) has already thrown
  else
    match base with
    | .num q => pure (.num (powLoop q (power - 1).toNat q))
    | _ => .error .assertFail      -- unreachable

/-- `while a > PI: a -= 2 * PI` (exact rational arithmetic). -/
def trigDown (a : ℚ) : ℚ :=
  if h : PI < a then trigDown (a - 2 * PI) else a
termination_by (⌈(a - PI) / (2 * PI)⌉).toNat
decreasing_by
  have hpi : (0 : ℚ) < PI := by norm_num [PI]
  have hx : (0 : ℚ) < (a - PI) / (2 * PI) := div_pos (by linarith) (by linarith)
  have he : (a - 2 * PI - PI) / (2 * PI) = (a - PI) / (2 * PI) - 1 := by
    field_simp
    ring
  rw [he, Int.ceil_sub_one]
  have h1 : 0 < ⌈(a - PI) / (2 * PI)⌉ := Int.ceil_pos.mpr hx
  omega

/-- `while a < -PI: a += 2 * PI` (exact rational arithmetic). -/
def trigUp (a : ℚ) : ℚ :=
  if h : a < -PI then trigUp (a + 2 * PI) else a
termination_by (⌈(-PI - a) / (2 * PI)⌉).toNat
decreasing_by
  have hpi : (0 : ℚ) < PI := by norm_num [PI]
  have hx : (0 : ℚ) < (-PI - a) / (2 * PI) := div_pos (by linarith) (by linarith)
  have he : (-PI - (a + 2 * PI)) / (2 * PI) = (-PI - a) / (2 * PI) - 1 := by
    field_simp
    ring
  rw [he, Int.ceil_sub_one]
  have h1 : 0 < ⌈(-PI - a) / (2 * PI)⌉ := Int.ceil_pos.mpr hx
  omega

/-- The range reduction shared by `sin` and `cos` (the two `while` loops). -/
def trigReduce (a : ℚ) : ℚ := trigUp (trigDown a)

/-- `sin`'s series loop over `i in range(1, 8)`:
`term *= -a * a / ((2 * i) * (2 * i + 1)); result += term`. -/
def sinTerms (r : ℚ) : List ℕ → ℚ × ℚ → ℚ × ℚ
  | [], p => p
  | i :: rest, (result, term) =>
    let t := term * (-(r * r) / ((2 * (i : ℚ)) * (2 * (i : ℚ) + 1)))
    sinTerms r rest (result + t, t)

/-- `def sin(a)`: finiteness assert, range reduction into `[-PI, PI]`,
then the 8-term Taylor series. -/
def sin (a : PVal) : Except Err PVal := do
  let f ← is_finite a
  pyassert f
  match a with
  | .num q =>
    let r := trigReduce q
    pure (.num (sinTerms r [1, 2, 3, 4, 5, 6, 7] (r, r)).1)
  | _ => .error .assertFail  -- unreachable

/-- `cos`'s series loop over `i in range(1, 8)`:
`term *= -a * a / ((2 * i - 1) * (2 * i)); result += term`. -/
def cosTerms (r : ℚ) : List ℕ → ℚ × ℚ → ℚ × ℚ
  | [], p => p
  | i :: rest, (result, term) =>
    let t := term * (-(r * r) / ((2 * (i : ℚ) - 1) * (2 * (i : ℚ))))
    cosTerms r rest (result + t, t)

/-- `def cos(a)`: finiteness assert, the same range reduction as `sin`,
then the 8-term Taylor series. -/
def cos (a : PVal) : Except Err PVal := do
  let f ← is_finite a
  pyassert f
  match a with
  | .num q =>
    let r := trigReduce q
    pure (.num (cosTerms r [1, 2, 3, 4, 5, 6, 7] (1, 1)).1)
  | _ => .error .assertFail  -- unreachable

/-- `def atan(a): assert is_finite(a); return a / (1.28 * pow(a, 2))`
(`1.28` is the fraction `128/100`). -/
def atan (a : PVal) : Except Err PVal := do
  let f ← is_finite a
  pyassert f
  let p ← pow a 2
  pvdiv a (pvmul (.num (128 / 100)) p)

/-- `def atan2(a, b)`: asserts finiteness of both arguments (short-circuit
`and`), handles `b == 0` explicitly, otherwise `atan(a / b)` with a
quadrant offset of `±PI` when `b < 0`. -/
def atan2 (a b : PVal) : Except Err PVal := do
  let f1 ← is_finite a
  let f2 ← if f1 then is_finite b else pure false
  pyassert (f1 && f2)
  if pveq b (.num 0) then
    if pvgt a (.num 0) then pure (.num (PI / 2))
    else if pvlt a (.num 0) then pure (.num (-(PI / 2)))
    else pure (.num 0)
  else do
    let q ← pvdiv a b
    let result ← atan q
    if pvlt b (.num 0) then
      if pvge a (.num 0) then pure (pvadd result (.num PI))
      else pure (pvsub result (.num PI))
    else pure result

/-- `exp`'s series loop over `i in range(2, 13)` with early exit:
`term *= r / i; result += term; if term < 1E-15 * result: break`. -/
def expLoop (r : ℚ) : List ℕ → ℚ → ℚ → ℚ × ℚ
  | [], term, result => (result, term)
  | i :: rest, term, result =>
    let t := term * (r / (i : ℚ))
    let res := result + t
    if t < 1 / 10^15 * res then (res, t) else expLoop r rest t res

/-- `def exp(a)`: finiteness assert, dead `a == 0` short-circuit,
range reduction `k = int(a * LOG2E); r = a - k * LN2`, series, then
rescaling by `pow(2, k)` (whose own assert divides `k / k`). -/
def exp (a : PVal) : Except Err PVal := do
  let f ← is_finite a
  pyassert f
  match a with
  | .num q =>
    if q = 0 then pure (.num 1)  -- unreachable: is_finite(0) has already thrown
    else
      let k : ℤ := pyint (q * LOG2E)
      let r : ℚ := q - k * LN2
      let result := (expLoop r [2, 3, 4, 5, 6, 7, 8, 9, 10, 11, 12] r (r + 1)).1
      let p ← pow (.num 2) k
      pure (pvmul (.num result) p)
  | _ => .error .assertFail  -- unreachable

/-- `while a > 2: a /= 2; exp += 1`.  The returned positivity fact is what
makes the subsequent doubling loop well-founded. -/
def lnHalve (a : ℚ) (h : 0 < a) : {p : ℚ × ℤ // 0 < p.1} :=
  if hgt : 2 < a then
    let r := lnHalve (a / 2) (by linarith)
    ⟨(r.1.1, r.1.2 + 1), r.2⟩
  else ⟨(a, 0), h⟩
termination_by ⌈a⌉.toNat
decreasing_by
  have hle := Int.le_ceil a
  have hn : 1 < ⌈a⌉ := by
    rw [Int.lt_ceil]
    push_cast
    linarith
  have h1 : ⌈a / 2⌉ ≤ ⌈a⌉ - 1 := by
    apply Int.ceil_le.mpr
    push_cast
    have hge : (2 : ℚ) ≤ (⌈a⌉ : ℚ) := by exact_mod_cast hn
    linarith
  omega

/-- `while a < 1: a *= 2; exp -= 1`.  The loop diverges for `a <= 0`, which
is unreachable behind `ln`'s `a > 0` assert; the positivity hypothesis
makes it well-founded exactly on the reachable domain. -/
def lnDouble (a : ℚ) (h : 0 < a) : ℚ × ℤ :=
  if hlt : a < 1 then
    let r := lnDouble (a * 2) (by linarith)
    (r.1, r.2 - 1)
  else (a, 0)
termination_by ⌈1 / a⌉.toNat
decreasing_by
  have hia : (1 : ℚ) < 1 / a := by
    rw [lt_div_iff₀ h]
    linarith
  have hle := Int.le_ceil (1 / a)
  have hn : 1 < ⌈1 / a⌉ := by
    rw [Int.lt_ceil]
    push_cast
    linarith
  have heq : 1 / (a * 2) = 1 / a / 2 := by rw [div_div]
  rw [heq]
  have h1 : ⌈1 / a / 2⌉ ≤ ⌈1 / a⌉ - 1 := by
    apply Int.ceil_le.mpr
    push_cast
    have h2 : (2 : ℚ) ≤ (⌈1 / a⌉ : ℚ) := by exact_mod_cast hn
    linarith
  omega

/-- The two sequential range-reduction loops of `ln`: halve while `a > 2`,
then double while `a < 1`, tracking the power-of-two exponent. -/
def lnReduce (a : ℚ) (h : 0 < a) : ℚ × ℤ :=
  let red := lnHalve a h
  let dd := lnDouble red.1.1 red.2
  (dd.1, red.1.2 + dd.2)

/-- `ln`'s series loop `while abs(y) > 1E-15: i += 1; y *= -a*(i-1)/i;
sum += y`, with `i` starting at 1.  Per (old) `i` the factor is
`-a * i / (i + 1)`.  The guard calls the module's `abs`, which raises
`ZeroDivisionError` when `y == 0`.  The loop runs at most `10^15 + 1`
times on the inputs `ln` feeds it (`|y| <= 1/i` throughout), so the
fuel `10^15 + 2` passed by `ln` is never exhausted. -/
def lnSeries (a : ℚ) : ℕ → ℕ → ℚ → ℚ → Except Err ℚ
  | 0, _, _, s => .ok s
  | fuel + 1, i, y, s => do
    let t ← abs (.num y)
    if pvgt t (.num (1 / 10^15)) then
      let y2 := y * (-a * (i : ℚ) / ((i : ℚ) + 1))
      lnSeries a fuel (i + 1) y2 (s + y2)
    else .ok s

/-- `def ln(a)`: assert `is_finite(a) and a > 0`, `a == 1` short-circuit,
halving/doubling range reduction, alternating series in `a - 1`, plus
`exp * LN2`. -/
def ln (a : PVal) : Except Err PVal := do
  let f ← is_finite a
  pyassert (f && pvgt a (.num 0))
  match a with
  | .num q =>
    if h : 0 < q then
      if q = 1 then pure (.num 0)
      else
        let red := lnReduce q h
        let r := red.1 - 1
        do
          let s ← lnSeries r (10^15 + 2) 1 r r
          pure (.num (s + (red.2 : ℚ) * LN2))
    else .error .assertFail  -- unreachable: the assert above has already thrown
  | _ => .error .assertFail  -- unreachable

/-!
## The bit codec (`struct.pack`/`struct.unpack`)

`to_bits` packs a float as IEEE-754 binary32 (`'>f'`, round to nearest,
ties to even) and reinterprets the 4 bytes as a signed 32-bit integer
(`'>l'`); `to_float` is the reverse reinterpretation.  The packing is
modelled arithmetically on the value (byte order is irrelevant once the
32-bit pattern is a single number).
-/

/-- Round to the nearest integer, ties to even. -/
def rne (x : ℚ) : ℤ :=
  let f := ⌊x⌋
  let r := x - f
  if r < 1 / 2 then f
  else if 1 / 2 < r then f + 1
  else if f % 2 = 0 then f else f + 1

/-- Multiply by an integer (possibly negative) power of two. -/
def shift2 (x : ℚ) (z : ℤ) : ℚ :=
  if 0 ≤ z then x * 2 ^ z.toNat else x / 2 ^ (-z).toNat

/-- Fuel-driven binary logarithm on naturals: for `1 ≤ n ≤ fuel` it returns
the largest `k` with `2^k ≤ n`. -/
def natLogF : ℕ → ℕ → ℕ
  | 0, _ => 0
  | f + 1, n => if 2 ≤ n then natLogF f (n / 2) + 1 else 0

/-- Fuel-driven count of doublings needed to reach `1`: for `0 < q < 1`
with sufficient fuel it returns the least `k` with `1 ≤ q * 2^k`. -/
def upLogF : ℕ → ℚ → ℕ
  | 0, _ => 0
  | f + 1, q => if q < 1 then upLogF f (q * 2) + 1 else 0

/-- `⌊log₂ q⌋` for positive rationals (junk on `q ≤ 0`, which no caller
reaches). -/
def ilog2 (q : ℚ) : ℤ :=
  if 1 ≤ q then (natLogF ⌊q⌋.toNat ⌊q⌋.toNat : ℤ)
  else -(upLogF q.den q : ℤ)

/-- `struct.pack('>f', q)` followed by reading the 4 bytes as one number:
the IEEE binary32 bit pattern (as a natural number `< 2^32`) of `q`
rounded to nearest, ties to even; values that round beyond the largest
finite binary32 raise `OverflowError`. -/
def packF32 (q : ℚ) : Except Err ℕ :=
  if q = 0 then .ok 0 else
  let s : ℕ := if q < 0 then 1 else 0
  let x := if q < 0 then -q else q
  let e0 : ℤ := ilog2 x
  if e0 < -126 then
    -- subnormal range: round to a multiple of 2^-149
    let n := (rne (shift2 x 149)).toNat
    if n < 2 ^ 23 then .ok (s * 2 ^ 31 + n)
    else .ok (s * 2 ^ 31 + 2 ^ 23)  -- rounded up to the smallest normal
  else
    -- normal range: significand `n = rne (x / 2^e0 * 2^23)` in `[2^23, 2^24]`
    let n := (rne (shift2 x (23 - e0))).toNat
    if n = 2 ^ 24 then
      if 127 < e0 + 1 then .error .overflowBits
      else .ok (s * 2 ^ 31 + (e0 + 128).toNat * 2 ^ 23)
    else
      if 127 < e0 then .error .overflowBits
      else .ok (s * 2 ^ 31 + (e0 + 127).toNat * 2 ^ 23 + (n - 2 ^ 23))

/-- The rational value of the binary32 fields `(sign, exponent, mantissa)`
with `e < 255` (finite).  Normal: `±(2^23 + m) * 2^(e - 150)`;
subnormal: `±m * 2^-149`. -/
def valF32 (s e m : ℕ) : ℚ :=
  (if s = 0 then 1 else -1) *
    (if e = 0 then (m : ℚ) / 2 ^ 149 else ((2 ^ 23 + m : ℕ) : ℚ) * 2 ^ e / 2 ^ 150)

/-- `struct.unpack('>f', bits)`: decode a 32-bit pattern as a binary32
value (`e = 255` decodes to the special values). -/
def decodeF32 (n : ℕ) : PVal :=
  let s := n / 2 ^ 31 % 2
  let e := n / 2 ^ 23 % 2 ^ 8
  let m := n % 2 ^ 23
  if e = 255 then (if m = 0 then (if s = 0 then .inf else .ninf) else .nan)
  else .num (valF32 s e m)

/-- Read a 32-bit pattern as a signed big-endian integer (`'>l'`). -/
def toSigned32 (n : ℕ) : ℤ := if n < 2 ^ 31 then n else (n : ℤ) - 2 ^ 32

/-- The 32-bit pattern of a signed integer (defined on `[-2^31, 2^31)`). -/
def toUnsigned32 (z : ℤ) : ℕ := (z % 2 ^ 32).toNat

/-- `def to_bits(a): assert is_finite(a);
s = struct.pack('>f', a); return struct.unpack('>l', s)[0]` -/
def to_bits (a : PVal) : Except Err ℤ := do
  let f ← is_finite a
  pyassert f
  match a with
  | .num q => Except.map toSigned32 (packF32 q)
  | _ => .error .assertFail  -- unreachable

/-- `def to_float(a): assert is_finite(a);
s = struct.pack('>l', a); return struct.unpack('>f', s)[0]`
(`struct.pack('>l', a)` raises `struct.error` outside `[-2^31, 2^31)`). -/
def to_float (a : ℤ) : Except Err PVal := do
  let f ← is_finite (.num (a : ℚ))
  pyassert f
  if a < -(2 ^ 31) ∨ 2 ^ 31 ≤ a then .error .structRange
  else pure (decodeF32 (toUnsigned32 a))

/-!
## Double-precision model of the trig range-reduction loop

Claim C8 is about what `while a > PI: a -= 2 * PI` does under the *actual*
Python semantics, i.e. IEEE-754 double arithmetic, so for that claim alone
the subtraction is modelled with binary64 round-to-nearest (`fl64`) instead
of exact rational arithmetic.  Overflow cannot occur in this loop (every
step moves the value toward zero), so `fl64` does not model it.
-/

/-- Round a rational to the nearest IEEE binary64 value (ties to even,
subnormals included, overflow not modelled). -/
def fl64 (x : ℚ) : ℚ :=
  if x = 0 then 0 else
  let s : ℚ := if x < 0 then -1 else 1
  let y := if x < 0 then -x else x
  let e0 := ilog2 y
  if e0 < -1022 then s * ((rne (shift2 y 1074) : ℤ) : ℚ) / 2 ^ 1074
  else s * shift2 (((rne (shift2 y (52 - e0)) : ℤ) : ℚ)) (e0 - 52)

/-- Binary64 subtraction: the exact difference, rounded. -/
def fsub64 (a b : ℚ) : ℚ := fl64 (a - b)

/-- The double value of the literal `PI`. -/
def piF : ℚ := fl64 PI

/-- The double value of `2 * PI` (exact doubling of a double). -/
def twoPiF : ℚ := fl64 (2 * piF)

/-- `while a > PI: a -= 2 * PI` under double arithmetic, with fuel:
`none` means the loop is still running when the fuel runs out. -/
def sinRedDownF : ℕ → ℚ → Option ℚ
  | 0, a => if piF < a then none else some a
  | f + 1, a => if piF < a then sinRedDownF f (fsub64 a twoPiF) else some a

/-- The loop makes no progress at `a`, whatever fuel it is given. -/
def sinRedStuck (a : ℚ) : Prop := ∀ fuel, sinRedDownF fuel a = none

/-- One comparison/swap of `median`'s inner loop:
`if data[j] > data[j + 1]: data[j], data[j + 1] = data[j + 1], data[j]`. -/
def swapStep (l : List ℚ) (j : ℕ) : List ℚ :=
  if l.getD j 0 > l.getD (j + 1) 0 then
    (l.set j (l.getD (j + 1) 0)).set (j + 1) (l.getD j 0)
  else l

/-- `median`'s inner loop `for j in range(size - i - 1)`. -/
def innerPass (l : List ℚ) (n : ℕ) : List ℚ := (List.range n).foldl swapStep l

/-- Structural restatement of one counted bubble pass (`innerPass` below is
proved equal to it): compare adjacent positions `j, j + 1` for `j < n`,
carrying the larger element forward, leaving everything past position `n`
untouched. -/
def bpassN : ℕ → List ℚ → List ℚ
  | 0, l => l
  | _ + 1, [] => []
  | _ + 1, [x] => [x]
  | n + 1, x :: y :: rest =>
    if x > y then y :: bpassN n (x :: rest) else x :: bpassN n (y :: rest)

/-- The outer loop of the bubble sort in pass-count form: passes of counts
`m, m - 1, ..., 1`. -/
def bubbleIter : ℕ → List ℚ → List ℚ
  | 0, l => l
  | m + 1, l => bubbleIter m (bpassN (m + 1) l)

/-- A segment of the outer loop: `k` passes of counts `c, c - 1, ...`;
`bubbleSeg c c = bubbleIter c`. -/
def bubbleSeg : ℕ → ℕ → List ℚ → List ℚ
  | _, 0, l => l
  | c, k + 1, l => bubbleSeg (c - 1) k (bpassN c l)

/-- `def median(data)`: length-finiteness assert, in-place bubble sort
(`for i in range(size - 1): for j in range(size - i - 1): ...`), then the
midpoint (odd length) or the average of the two midpoints (even length).
The state passing returns the mutated list together with the result. -/
def median (data : List ℚ) : Except Err (List ℚ × ℚ) := do
  let f ← is_finite (.num (data.length : ℚ))
  pyassert (f && decide (0 < data.length))
  let size := data.length
  let s := (List.range (size - 1)).foldl (fun acc i => innerPass acc (size - i - 1)) data
  if size % 2 = 0 then
    pure (s, (s.getD (size / 2 - 1) 0 + s.getD (size / 2) 0) / 2)
  else
    pure (s, s.getD (size / 2) 0)

end mlib

/-!
## Evaluation lemmas for the precondition layer
-/

theorem mlib_is_finite_num {q : ℚ} (hq : q ≠ 0) : mlib.is_finite (.num q) = .ok true := by
  simp [mlib.is_finite, mlib.is_infinite, mlib.is_nan, mlib.pvdiv, mlib.pvne, mlib.pveq,
    hq, Bind.bind, Except.bind, Pure.pure, Except.pure]

theorem mlib_is_finite_zero : mlib.is_finite (.num 0) = .error .divByZero := by
  simp [mlib.is_finite, mlib.is_infinite, mlib.pvdiv, Bind.bind, Except.bind]

theorem mlib_is_finite_inf : mlib.is_finite .inf = .ok false := by
  simp [mlib.is_finite, mlib.is_infinite, mlib.is_nan, mlib.pvdiv, mlib.pvne, mlib.pveq,
    Bind.bind, Except.bind, Pure.pure, Except.pure]

theorem mlib_is_finite_ninf : mlib.is_finite .ninf = .ok false := by
  simp [mlib.is_finite, mlib.is_infinite, mlib.is_nan, mlib.pvdiv, mlib.pvne, mlib.pveq,
    Bind.bind, Except.bind, Pure.pure, Except.pure]

theorem mlib_is_finite_nan : mlib.is_finite .nan = .ok false := by
  simp [mlib.is_finite, mlib.is_infinite, mlib.is_nan, mlib.pvdiv, mlib.pvne, mlib.pveq,
    Bind.bind, Except.bind, Pure.pure, Except.pure]

/-!
## Round-to-nearest lemmas for the bit codec and the binary64 model
-/

theorem rne_of_between (n : ℤ) (x : ℚ) (h1 : (n : ℚ) ≤ x) (h2 : x < n + 1/2) :
    mlib.rne x = n := by
  have hf : ⌊x⌋ = n := by
    rw [Int.floor_eq_iff]
    refine ⟨h1, by linarith⟩
  simp only [mlib.rne, hf]
  rw [if_pos (by linarith)]

theorem rne_of_above (n : ℤ) (x : ℚ) (h1 : (n : ℚ) - 1/2 < x) (h2 : x ≤ n) :
    mlib.rne x = n := by
  rcases h2.eq_or_lt with heq | hlt
  · have hf : ⌊x⌋ = n := by
      rw [Int.floor_eq_iff]
      refine ⟨le_of_eq heq.symm, by linarith⟩
    simp only [mlib.rne, hf]
    rw [if_pos (by linarith)]
  · have hf : ⌊x⌋ = n - 1 := by
      rw [Int.floor_eq_iff]
      constructor
      · push_cast
        linarith
      · push_cast
        linarith
    simp only [mlib.rne, hf]
    rw [if_neg (by push_cast; linarith), if_pos (by push_cast; linarith)]
    omega

theorem shift2_eq (x : ℚ) (z : ℤ) : mlib.shift2 x z = x * (2:ℚ)^z := by
  unfold mlib.shift2
  split
  · next h =>
    have hz : ((z.toNat : ℕ) : ℤ) = z := Int.toNat_of_nonneg h
    rw [← zpow_natCast (2:ℚ) z.toNat, hz]
  · next h =>
    have hk : ((-z).toNat : ℤ) = -z := by omega
    rw [div_eq_mul_inv, ← zpow_natCast (2:ℚ) (-z).toNat, hk, ← zpow_neg, neg_neg]

theorem natLogF_spec : ∀ (f n : ℕ), 1 ≤ n → n ≤ f →
    2 ^ mlib.natLogF f n ≤ n ∧ n < 2 ^ (mlib.natLogF f n + 1) := by
  intro f
  induction f with
  | zero =>
    intro n h1 h2
    omega
  | succ f ih =>
    intro n h1 h2
    by_cases h : 2 ≤ n
    · have hd1 : 1 ≤ n / 2 := by omega
      have hd2 : n / 2 ≤ f := by omega
      obtain ⟨ha, hb⟩ := ih (n / 2) hd1 hd2
      simp only [mlib.natLogF, if_pos h]
      set L := mlib.natLogF f (n / 2) with hL
      have e1 : (2:ℕ) ^ (L + 1) = 2 * 2 ^ L := by rw [pow_succ]; ring
      have e2 : (2:ℕ) ^ (L + 1 + 1) = 2 * 2 ^ (L + 1) := by rw [pow_succ]; ring
      omega
    · simp only [mlib.natLogF, if_neg h]
      norm_num
      omega

theorem upLogF_of_ge (f : ℕ) (q : ℚ) (h : 1 ≤ q) : mlib.upLogF f q = 0 := by
  cases f <;> simp [mlib.upLogF, not_lt.mpr h]

theorem upLogF_spec : ∀ (f : ℕ) (q : ℚ), 0 < q → q < 1 → 1 ≤ q * 2 ^ f →
    1 ≤ q * 2 ^ mlib.upLogF f q ∧ q * 2 ^ mlib.upLogF f q < 2 := by
  intro f
  induction f with
  | zero =>
    intro q h0 h1 h2
    norm_num at h2
    linarith
  | succ f ih =>
    intro q h0 h1 h2
    simp only [mlib.upLogF, if_pos h1]
    have hrw : q * 2 ^ (mlib.upLogF f (q * 2) + 1) = (q * 2) * 2 ^ mlib.upLogF f (q * 2) := by
      rw [pow_succ]
      ring
    rw [hrw]
    by_cases hq2 : q * 2 < 1
    · exact ih (q * 2) (by linarith) hq2 (by rw [pow_succ] at h2; linarith)
    · rw [upLogF_of_ge f _ (not_lt.mp hq2)]
      norm_num
      constructor <;> linarith [not_lt.mp hq2]

theorem ilog2_spec (q : ℚ) (h : 0 < q) :
    (2:ℚ) ^ mlib.ilog2 q ≤ q ∧ q < 2 ^ (mlib.ilog2 q + 1) := by
  unfold mlib.ilog2
  split
  · next h1 =>
    have hf1 : 1 ≤ ⌊q⌋ := Int.le_floor.mpr (by push_cast; linarith)
    set m := ⌊q⌋.toNat with hm
    have hm1 : 1 ≤ m := by omega
    obtain ⟨ha, hb⟩ := natLogF_spec m m hm1 (le_refl m)
    set L := mlib.natLogF m m with hL
    have hcast : ((m : ℤ) : ℚ) = (⌊q⌋ : ℚ) := by
      rw [hm, Int.toNat_of_nonneg (by omega)]
    have hmq : (m : ℚ) ≤ q := by
      have hfl := Int.floor_le q
      push_cast at hcast ⊢
      linarith
    have hqm : q < (m : ℚ) + 1 := by
      have hfl := Int.lt_floor_add_one q
      push_cast at hcast ⊢
      linarith
    constructor
    · rw [zpow_natCast]
      have hc : ((2 ^ L : ℕ) : ℚ) ≤ (m : ℚ) := by exact_mod_cast ha
      push_cast at hc
      linarith
    · rw [show ((L : ℤ) + 1) = ((L + 1 : ℕ) : ℤ) by push_cast; ring, zpow_natCast]
      have hc : ((m : ℕ) : ℚ) + 1 ≤ ((2 ^ (L + 1) : ℕ) : ℚ) := by exact_mod_cast hb
      push_cast at hc
      linarith
  · next h1 =>
    push_neg at h1
    have hqd : q = (q.num : ℚ) / (q.den : ℚ) := (Rat.num_div_den q).symm
    have hnp : 0 < q.num := Rat.num_pos.mpr h
    have hdp : (0:ℚ) < (q.den : ℚ) := by
      have := q.den_pos
      exact_mod_cast this
    have hfuel : 1 ≤ q * 2 ^ q.den := by
      set nn := q.num with hnn
      set dd := q.den with hdd
      have hnum : (1:ℚ) ≤ (nn : ℚ) := by exact_mod_cast hnp
      have hpow : ((dd : ℕ) : ℚ) ≤ 2 ^ (dd : ℕ) := by
        have := Nat.lt_two_pow dd
        exact_mod_cast this.le
      rw [hqd, div_mul_eq_mul_div, le_div_iff₀ hdp, one_mul]
      calc ((dd : ℕ) : ℚ) ≤ 2 ^ (dd : ℕ) := hpow
        _ ≤ (nn : ℚ) * 2 ^ (dd : ℕ) :=
          le_mul_of_one_le_left (by positivity) hnum
    obtain ⟨ha, hb⟩ := upLogF_spec q.den q h h1 hfuel
    set k := mlib.upLogF q.den q with hk
    have hp : (0:ℚ) < 2 ^ k := by positivity
    constructor
    · rw [zpow_neg, zpow_natCast]
      calc (2 ^ k : ℚ)⁻¹ = (2 ^ k : ℚ)⁻¹ * 1 := (mul_one _).symm
        _ ≤ (2 ^ k : ℚ)⁻¹ * (q * 2 ^ k) :=
          mul_le_mul_of_nonneg_left ha (by positivity)
        _ = q * ((2 ^ k : ℚ)⁻¹ * 2 ^ k) := by ring
        _ = q := by rw [inv_mul_cancel₀ (ne_of_gt hp), mul_one]
    · have he : (2:ℚ) ^ (-(k:ℤ) + 1) = (2 ^ k : ℚ)⁻¹ * 2 := by
        rw [zpow_add_one₀ (by norm_num : (2:ℚ) ≠ 0), zpow_neg, zpow_natCast]
      rw [he]
      calc q = (2 ^ k : ℚ)⁻¹ * (q * 2 ^ k) := by
            rw [show (2 ^ k : ℚ)⁻¹ * (q * 2 ^ k) = q * ((2 ^ k : ℚ)⁻¹ * 2 ^ k) by ring,
              inv_mul_cancel₀ (ne_of_gt hp), mul_one]
        _ < (2 ^ k : ℚ)⁻¹ * 2 := mul_lt_mul_of_pos_left hb (by positivity)

theorem ilog2_unique (q : ℚ) (z : ℤ) (h : 0 < q) (h1 : (2:ℚ)^z ≤ q) (h2 : q < 2^(z+1)) :
    mlib.ilog2 q = z := by
  obtain ⟨ha, hb⟩ := ilog2_spec q h
  have o1 := (zpow_lt_zpow_iff_right₀ (by norm_num : (1:ℚ) < 2)).mp (lt_of_le_of_lt ha h2)
  have o2 := (zpow_lt_zpow_iff_right₀ (by norm_num : (1:ℚ) < 2)).mp (lt_of_le_of_lt h1 hb)
  omega

theorem fl64_eq_pos (x : ℚ) (hx : 0 < x) (e n : ℤ) (he1 : (2:ℚ)^e ≤ x) (he2 : x < 2^(e+1))
    (hge : -1022 ≤ e) (hn : mlib.rne (x * (2:ℚ)^(52 - e)) = n) :
    mlib.fl64 x = (n : ℚ) * (2:ℚ)^(e - 52) := by
  have hep : mlib.ilog2 x = e := ilog2_unique x e hx he1 he2
  simp only [mlib.fl64, if_neg hx.ne', if_neg (not_lt.mpr hx.le), hep, shift2_eq]
  rw [if_neg (by omega : ¬ (e < -1022)), hn]
  ring

theorem piF_val : mlib.piF = 7074237752028440 / 2^51 := by
  unfold mlib.piF
  rw [fl64_eq_pos mlib.PI (by norm_num [mlib.PI]) 1 7074237752028440
    (by norm_num [mlib.PI]) (by norm_num [mlib.PI]) (by norm_num)
    (rne_of_between 7074237752028440 _ (by norm_num [mlib.PI]) (by norm_num [mlib.PI]))]
  norm_num

theorem twoPiF_val : mlib.twoPiF = 7074237752028440 / 2^50 := by
  unfold mlib.twoPiF
  rw [piF_val]
  rw [fl64_eq_pos _ (by norm_num) 2 7074237752028440
    (by norm_num) (by norm_num) (by norm_num)
    (rne_of_between 7074237752028440 _ (by norm_num) (by norm_num))]
  norm_num

theorem fsub64_step : mlib.fsub64 ((2:ℚ)^60) mlib.twoPiF = (2:ℚ)^60 := by
  unfold mlib.fsub64
  rw [twoPiF_val]
  rw [fl64_eq_pos _ (by norm_num) 59 (2^53)
    (by norm_num) (by norm_num) (by norm_num)
    (rne_of_above (2^53) _ (by norm_num) (by norm_num))]
  norm_num


/-!
## Claims
-/

/-- C1: `is_infinite(0)` evaluates `0/0` and raises `ZeroDivisionError`
instead of returning a boolean, so `is_finite(0)` raises too, and every
exposed function that begins with a finiteness assertion (`sqrt`, `exp`,
`sin`, `abs`, `to_bits`, `gcd`, `pow`, ...) fails with a division-by-zero
error when called with the argument `0` — the documented zero
short-circuits (such as `sqrt`'s `if a == 0: return 0`) are unreachable. -/
theorem claim_C1_zero_raises :
    mlib.is_infinite (.num 0) = .error .divByZero ∧
    mlib.is_finite (.num 0) = .error .divByZero ∧
    mlib.sqrt (.num 0) = .error .divByZero ∧
    mlib.exp (.num 0) = .error .divByZero ∧
    mlib.sin (.num 0) = .error .divByZero ∧
    mlib.abs (.num 0) = .error .divByZero ∧
    mlib.to_bits (.num 0) = .error .divByZero ∧
    mlib.gcd 0 5 = .error .divByZero ∧
    mlib.pow (.num 0) 1 = .error .divByZero ∧
    mlib.pow (.num 2) 0 = .error .divByZero := by
  refine ⟨?_, mlib_is_finite_zero, ?_, ?_, ?_, ?_, ?_, ?_, ?_, ?_⟩
  · simp [mlib.is_infinite, mlib.pvdiv, Bind.bind, Except.bind]
  · simp [mlib.sqrt, mlib_is_finite_zero, Bind.bind, Except.bind]
  · simp [mlib.exp, mlib_is_finite_zero, Bind.bind, Except.bind]
  · simp [mlib.sin, mlib_is_finite_zero, Bind.bind, Except.bind]
  · simp [mlib.abs, mlib_is_finite_zero, Bind.bind, Except.bind]
  · simp [mlib.to_bits, mlib_is_finite_zero, Bind.bind, Except.bind]
  · simp [mlib.gcd, mlib_is_finite_zero, Bind.bind, Except.bind]
  · simp [mlib.pow, mlib_is_finite_zero, Bind.bind, Except.bind]
  · simp [mlib.pow, mlib_is_finite_zero, mlib_is_finite_num, mlib.pyassert,
      Bind.bind, Except.bind]

/-- C2: the spec says `sqrt(0)` short-circuits to `0`, but the code never
reaches that branch — `sqrt(0)` raises `ZeroDivisionError` from
`is_finite(0)`'s `0/0` inside the leading assert. -/
theorem claim_C2_sqrt_zero_raises :
    mlib.sqrt (.num 0) = .error .divByZero ∧ mlib.sqrt (.num 0) ≠ .ok (.num 0) := by
  have h : mlib.sqrt (.num 0) = .error .divByZero := by
    simp [mlib.sqrt, mlib_is_finite_zero, Bind.bind, Except.bind]
  exact ⟨h, by rw [h]; simp⟩

/-- C4: the spec's round-trip law `exp(ln(a)) ≈ a` fails at `a == 1`:
`ln(1)` returns `0` via its short-circuit, and then `exp(0)` raises
`ZeroDivisionError` from `is_finite(0)` inside its leading assert. -/
theorem claim_C4_roundtrip_raises :
    mlib.ln (.num 1) = .ok (.num 0) ∧
    (mlib.ln (.num 1) >>= mlib.exp) = .error .divByZero := by
  have h : mlib.ln (.num 1) = .ok (.num 0) := by
    simp [mlib.ln, mlib_is_finite_num, mlib.pyassert, mlib.pvgt, mlib.pvlt,
      Bind.bind, Except.bind, Pure.pure, Except.pure]
  refine ⟨h, ?_⟩
  have h2 : (mlib.ln (.num 1) >>= mlib.exp) = mlib.exp (.num 0) := by
    rw [h]
    simp [Bind.bind, Except.bind]
  rw [h2]
  simp [mlib.exp, mlib_is_finite_zero, Bind.bind, Except.bind]

/-- C5 (counterexample): the claim says `pow(base, p)` returns `base` for
every finite base and negative `p`, but at `base == 0` the leading assert
raises `ZeroDivisionError` instead. -/
theorem claim_C5_counterexample :
    mlib.pow (.num 0) (-2) = .error .divByZero ∧
    mlib.pow (.num 0) (-2) ≠ .ok (.num 0) := by
  have h : mlib.pow (.num 0) (-2) = .error .divByZero := by
    simp [mlib.pow, mlib_is_finite_zero, Bind.bind, Except.bind]
  exact ⟨h, by rw [h]; simp⟩

/-- C5 (amended): for every finite **nonzero** base and negative integer
`p`, `pow(base, p)` returns the base itself (the loop `range(1, p)` is
empty); and the `power == 0` branch that would return `1` is unreachable —
`pow(base, 0)` raises `ZeroDivisionError` from `is_finite(0)` on the
power argument. -/
theorem claim_C5_amended :
    (∀ (q : ℚ), q ≠ 0 → ∀ (p : ℤ), p < 0 → mlib.pow (.num q) p = .ok (.num q)) ∧
    (∀ (q : ℚ), mlib.pow (.num q) 0 = .error .divByZero) := by
  constructor
  · intro q hq p hp
    have hp0 : (p : ℚ) ≠ 0 := by
      simpa using (show (p : ℚ) < 0 by exact_mod_cast hp).ne
    have hcount : (p - 1).toNat = 0 := by omega
    have hne : p ≠ 0 := by omega
    simp [mlib.pow, mlib_is_finite_num hq, mlib_is_finite_num hp0, mlib.pyassert,
      hcount, hne, mlib.powLoop, Bind.bind, Except.bind, Pure.pure, Except.pure]
  · intro q
    by_cases hq : q = 0
    · subst hq
      simp [mlib.pow, mlib_is_finite_zero, Bind.bind, Except.bind]
    · simp [mlib.pow, mlib_is_finite_num hq, mlib_is_finite_zero,
        Bind.bind, Except.bind]

/-- C5 (witness): the amended claim at `base = 5`, `p = -2` and at
`base = 5`, `p = 0`. -/
theorem claim_C5_witness :
    mlib.pow (.num 5) (-2) = .ok (.num 5) ∧
    mlib.pow (.num 5) 0 = .error .divByZero :=
  ⟨claim_C5_amended.1 5 (by norm_num) (-2) (by norm_num), claim_C5_amended.2 5⟩

/-- C6: the spec says `atan2(a, 0)` returns `±PI/2` or `0` via the explicit
`b == 0` branch, but that branch is unreachable: the leading assert calls
`is_finite(0)` on `b`, which raises `ZeroDivisionError` (for `a == 0` the
assert already raises on `a`). -/
theorem claim_C6_atan2_zero_raises :
    mlib.atan2 (.num 1) (.num 0) = .error .divByZero ∧
    mlib.atan2 (.num (-1)) (.num 0) = .error .divByZero ∧
    mlib.atan2 (.num 0) (.num 0) = .error .divByZero := by
  refine ⟨?_, ?_, ?_⟩
  · simp [mlib.atan2, mlib_is_finite_num (show (1 : ℚ) ≠ 0 by norm_num),
      mlib_is_finite_zero, Bind.bind, Except.bind]
  · simp [mlib.atan2, mlib_is_finite_num (show (-1 : ℚ) ≠ 0 by norm_num),
      mlib_is_finite_zero, Bind.bind, Except.bind]
  · simp [mlib.atan2, mlib_is_finite_zero, Bind.bind, Except.bind]

/-!
## The range reduction of `ln` (claim C7)
-/

theorem lnHalve_eq_self (a : ℚ) (h : 0 < a) (hle : a ≤ 2) :
    (mlib.lnHalve a h).1.1 = a := by
  rw [mlib.lnHalve, dif_neg (not_lt.mpr hle)]

theorem lnHalve_le (a : ℚ) (h : 0 < a) : (mlib.lnHalve a h).1.1 ≤ 2 := by
  induction a, h using mlib.lnHalve.induct with
  | case1 a h hgt ih =>
    rw [mlib.lnHalve, dif_pos hgt]
    exact ih
  | case2 a h hgt =>
    rw [mlib.lnHalve, dif_neg hgt]
    exact not_lt.mp hgt

theorem lnHalve_gt_one (a : ℚ) (h : 0 < a) : 2 < a → 1 < (mlib.lnHalve a h).1.1 := by
  induction a, h using mlib.lnHalve.induct with
  | case1 a h hgt ih =>
    intro _
    rw [mlib.lnHalve, dif_pos hgt]
    rcases lt_or_le 2 (a / 2) with h2 | h2
    · exact ih h2
    · rw [lnHalve_eq_self _ _ h2]
      linarith
  | case2 a h hgt =>
    intro hgt2
    exact absurd hgt2 hgt

theorem lnDouble_eq_self (a : ℚ) (h : 0 < a) (hge : 1 ≤ a) :
    (mlib.lnDouble a h).1 = a := by
  rw [mlib.lnDouble, dif_neg (not_lt.mpr hge)]

theorem lnDouble_ge_one (a : ℚ) (h : 0 < a) : 1 ≤ (mlib.lnDouble a h).1 := by
  induction a, h using mlib.lnDouble.induct with
  | case1 a h hlt ih =>
    rw [mlib.lnDouble, dif_pos hlt]
    exact ih
  | case2 a h hlt =>
    rw [mlib.lnDouble, dif_neg hlt]
    exact not_lt.mp hlt

theorem lnDouble_lt_two (a : ℚ) (h : 0 < a) : a < 1 → (mlib.lnDouble a h).1 < 2 := by
  induction a, h using mlib.lnDouble.induct with
  | case1 a h hlt ih =>
    intro _
    rw [mlib.lnDouble, dif_pos hlt]
    rcases lt_or_le (a * 2) 1 with h2 | h2
    · exact ih h2
    · rw [lnDouble_eq_self _ _ h2]
      linarith
  | case2 a h hlt =>
    intro hlt2
    exact absurd hlt2 hlt

/-- C7 (counterexample): at `a = 2` (similarly at any `2^k`, `k ≥ 1`) the
range reduction of `ln` leaves the reduced argument at exactly `2`, which
is *not* in the half-open interval `[1, 2)` the claim states. -/
theorem claim_C7_counterexample :
    (mlib.lnReduce 2 (by norm_num)).1 = 2 ∧
    ¬ ((mlib.lnReduce 2 (by norm_num)).1 < 2) := by
  have hx : (mlib.lnHalve 2 (by norm_num)).1.1 = 2 :=
    lnHalve_eq_self 2 (by norm_num) (by norm_num)
  have h2 : (mlib.lnReduce 2 (by norm_num)).1 = 2 := by
    show (mlib.lnDouble (mlib.lnHalve 2 (by norm_num)).1.1 (mlib.lnHalve 2 (by norm_num)).2).1 = 2
    rw [lnDouble_eq_self _ _ (by rw [hx]; norm_num), hx]
  exact ⟨h2, by rw [h2]; norm_num⟩

/-- C7 (amended): for every `a > 0`, `ln`'s range reduction leaves the
reduced argument in the **closed** interval `[1, 2]` before the series in
`(a - 1)` is evaluated (the right endpoint `2` is attained exactly at the
powers of two `>= 2`; for all other arguments the result lies in `[1, 2)`). -/
theorem claim_C7_amended (a : ℚ) (h : 0 < a) :
    1 ≤ (mlib.lnReduce a h).1 ∧ (mlib.lnReduce a h).1 ≤ 2 := by
  show 1 ≤ (mlib.lnDouble (mlib.lnHalve a h).1.1 (mlib.lnHalve a h).2).1 ∧
    (mlib.lnDouble (mlib.lnHalve a h).1.1 (mlib.lnHalve a h).2).1 ≤ 2
  have hle : (mlib.lnHalve a h).1.1 ≤ 2 := lnHalve_le a h
  refine ⟨lnDouble_ge_one _ _, ?_⟩
  rcases lt_or_le (mlib.lnHalve a h).1.1 1 with hlt | hge
  · exact le_of_lt (lnDouble_lt_two _ _ (by linarith))
  · rw [lnDouble_eq_self _ _ hge]
    exact hle

/-- C7 (witness): the amended claim at `a = 5` (reduced argument `5/4`). -/
theorem claim_C7_witness :
    1 ≤ (mlib.lnReduce 5 (by norm_num)).1 ∧ (mlib.lnReduce 5 (by norm_num)).1 ≤ 2 :=
  claim_C7_amended 5 (by norm_num)

/-!
## The range reduction of `sin`/`cos`, exact arithmetic (claim C8)
-/

theorem trigDown_eq_self (a : ℚ) (h : a ≤ mlib.PI) : mlib.trigDown a = a := by
  rw [mlib.trigDown, dif_neg (not_lt.mpr h)]

theorem trigDown_le (a : ℚ) : mlib.trigDown a ≤ mlib.PI := by
  induction a using mlib.trigDown.induct with
  | case1 a hgt ih =>
    rw [mlib.trigDown, dif_pos hgt]
    exact ih
  | case2 a hgt =>
    rw [mlib.trigDown, dif_neg hgt]
    exact not_lt.mp hgt

theorem trigDown_gt (a : ℚ) : mlib.PI < a → -mlib.PI < mlib.trigDown a := by
  induction a using mlib.trigDown.induct with
  | case1 a hgt ih =>
    intro _
    rw [mlib.trigDown, dif_pos hgt]
    rcases lt_or_le mlib.PI (a - 2 * mlib.PI) with h2 | h2
    · exact ih h2
    · rw [trigDown_eq_self _ h2]
      linarith
  | case2 a hgt =>
    intro hgt2
    exact absurd hgt2 hgt

theorem trigUp_eq_self (a : ℚ) (h : -mlib.PI ≤ a) : mlib.trigUp a = a := by
  rw [mlib.trigUp, dif_neg (not_lt.mpr h)]

theorem trigUp_ge (a : ℚ) : -mlib.PI ≤ mlib.trigUp a := by
  induction a using mlib.trigUp.induct with
  | case1 a hlt ih =>
    rw [mlib.trigUp, dif_pos hlt]
    exact ih
  | case2 a hlt =>
    rw [mlib.trigUp, dif_neg hlt]
    exact not_lt.mp hlt

theorem trigUp_lt (a : ℚ) : a < -mlib.PI → mlib.trigUp a < mlib.PI := by
  have hpi : (0 : ℚ) < mlib.PI := by norm_num [mlib.PI]
  induction a using mlib.trigUp.induct with
  | case1 a hlt ih =>
    intro _
    rw [mlib.trigUp, dif_pos hlt]
    rcases lt_or_le (a + 2 * mlib.PI) (-mlib.PI) with h2 | h2
    · exact ih h2
    · rw [trigUp_eq_self _ h2]
      linarith
  | case2 a hlt =>
    intro hlt2
    exact absurd hlt2 hlt

/-- C8 (amended, exact-arithmetic part): under exact rational arithmetic
the `±2*PI` adjustment loops of `sin` and `cos` terminate for every input
(`trigReduce` is a total function defined by well-founded recursion on
those loops) and leave the reduced argument in `[-PI, PI]`. -/
theorem claim_C8_amended (a : ℚ) :
    -mlib.PI ≤ mlib.trigReduce a ∧ mlib.trigReduce a ≤ mlib.PI := by
  unfold mlib.trigReduce
  refine ⟨trigUp_ge _, ?_⟩
  rcases le_or_lt (-mlib.PI) (mlib.trigDown a) with hge | hlt
  · rw [trigUp_eq_self _ hge]
    exact trigDown_le a
  · exact le_of_lt (trigUp_lt _ hlt)

/-- C8 (counterexample): under the code's actual double-precision
arithmetic the claim fails at the finite input `a = 2^60`: there
`a - 2 * PI` rounds back to `a` (the subtrahend is below half an ulp), so
`while a > PI: a -= 2 * PI` makes no progress and `sin(2^60)` (and
`cos(2^60)`) never return, however much fuel the loop is given. -/
theorem claim_C8_counterexample : mlib.sinRedStuck ((2:ℚ)^60) := by
  have hgt : mlib.piF < (2:ℚ)^60 := by
    rw [piF_val]
    norm_num
  intro fuel
  induction fuel with
  | zero => simp only [mlib.sinRedDownF, if_pos hgt]
  | succ f ih =>
    simp only [mlib.sinRedDownF, if_pos hgt, fsub64_step]
    exact ih


/-- C9 (counterexample): the claim says *any* listed exposed function
fails fatally on a NaN or infinite argument, but the listed classification
predicates themselves do not: `is_nan(nan)` and `is_infinite(inf)`
silently return `True`. -/
theorem claim_C9_counterexample :
    mlib.is_nan .nan = .ok true ∧ mlib.is_infinite .inf = .ok true := by
  constructor
  · simp [mlib.is_nan, mlib.pvne, mlib.pveq, Pure.pure, Except.pure]
  · simp [mlib.is_infinite, mlib.pvdiv, mlib.pvne, mlib.pveq,
      Bind.bind, Except.bind, Pure.pure, Except.pure]

/-- C9 (amended): every embedded exposed function that begins with a
finiteness assertion fails fatally (with `AssertionError`) when given a
NaN or infinite argument, in either argument position for `atan2`;
only the classification predicates `is_finite`/`is_infinite`/`is_nan`
return normally on such arguments. -/
theorem claim_C9_amended (v : mlib.PVal)
    (h : v = .inf ∨ v = .ninf ∨ v = .nan) :
    mlib.to_bits v = .error .assertFail ∧
    mlib.to_radian v = .error .assertFail ∧
    mlib.abs v = .error .assertFail ∧
    mlib.sqrt v = .error .assertFail ∧
    mlib.isqrt v = .error .assertFail ∧
    mlib.exp v = .error .assertFail ∧
    mlib.ln v = .error .assertFail ∧
    mlib.sin v = .error .assertFail ∧
    mlib.cos v = .error .assertFail ∧
    mlib.atan v = .error .assertFail ∧
    mlib.atan2 v (.num 1) = .error .assertFail ∧
    mlib.atan2 (.num 1) v = .error .assertFail ∧
    mlib.pow v 2 = .error .assertFail := by
  have h1 : (1 : ℚ) ≠ 0 := by norm_num
  rcases h with rfl | rfl | rfl <;>
    refine ⟨?_, ?_, ?_, ?_, ?_, ?_, ?_, ?_, ?_, ?_, ?_, ?_, ?_⟩ <;>
    simp [mlib.to_bits, mlib.to_radian, mlib.abs, mlib.sqrt, mlib.isqrt, mlib.exp,
      mlib.ln, mlib.sin, mlib.cos, mlib.atan, mlib.atan2, mlib.pow,
      mlib_is_finite_inf, mlib_is_finite_ninf, mlib_is_finite_nan, mlib_is_finite_num h1,
      mlib.pyassert, mlib.pvge, mlib.pvgt, mlib.pvle, mlib.pvlt, mlib.pveq,
      Bind.bind, Except.bind, Pure.pure, Except.pure]

/-- C9 (witness): the amended claim at the concrete value `nan`. -/
theorem claim_C9_witness :
    mlib.to_bits .nan = .error .assertFail ∧
    mlib.to_radian .nan = .error .assertFail ∧
    mlib.abs .nan = .error .assertFail ∧
    mlib.sqrt .nan = .error .assertFail ∧
    mlib.isqrt .nan = .error .assertFail ∧
    mlib.exp .nan = .error .assertFail ∧
    mlib.ln .nan = .error .assertFail ∧
    mlib.sin .nan = .error .assertFail ∧
    mlib.cos .nan = .error .assertFail ∧
    mlib.atan .nan = .error .assertFail ∧
    mlib.atan2 .nan (.num 1) = .error .assertFail ∧
    mlib.atan2 (.num 1) .nan = .error .assertFail ∧
    mlib.pow .nan 2 = .error .assertFail :=
  claim_C9_amended .nan (Or.inr (Or.inr rfl))

/-!
## The bubble sort of `median` (claim C10)
-/

theorem swapStep_nil (j : ℕ) : mlib.swapStep [] j = [] := by
  simp [mlib.swapStep]

theorem swapStep_zero (x y : ℚ) (rest : List ℚ) :
    mlib.swapStep (x :: y :: rest) 0 = if x > y then y :: x :: rest else x :: y :: rest := by
  simp [mlib.swapStep]

theorem swapStep_cons_succ (z : ℚ) (l : List ℚ) (j : ℕ) :
    mlib.swapStep (z :: l) (j + 1) = z :: mlib.swapStep l j := by
  simp only [mlib.swapStep, List.getD_cons_succ, List.set_cons_succ]
  split <;> rfl

theorem foldl_swapStep_map_succ (js : List ℕ) : ∀ (z : ℚ) (l : List ℚ),
    (js.map Nat.succ).foldl mlib.swapStep (z :: l) = z :: js.foldl mlib.swapStep l := by
  induction js with
  | nil => intro z l; rfl
  | cons j js ih =>
    intro z l
    simp only [List.map_cons, List.foldl_cons]
    rw [show Nat.succ j = j + 1 from rfl, swapStep_cons_succ, ih]

theorem bpassN_singleton (n : ℕ) (x : ℚ) : mlib.bpassN n [x] = [x] := by
  cases n <;> rfl

theorem bpassN_nil (n : ℕ) : mlib.bpassN n [] = [] := by
  cases n <;> rfl

theorem innerPass_eq_bpassN : ∀ (n : ℕ) (l : List ℚ), n < l.length →
    mlib.innerPass l n = mlib.bpassN n l := by
  intro n
  induction n with
  | zero => intro l _; rfl
  | succ n ih =>
    intro l hl
    match l with
    | [] => simp at hl
    | [x] => simp at hl
    | x :: y :: rest =>
      have hx := ih (x :: rest) (by simpa using Nat.lt_of_succ_lt_succ hl)
      have hy := ih (y :: rest) (by simpa using Nat.lt_of_succ_lt_succ hl)
      unfold mlib.innerPass at hx hy ⊢
      rw [List.range_succ_eq_map, List.foldl_cons, swapStep_zero]
      simp only [mlib.bpassN]
      rcases lt_or_le y x with hxy | hxy
      · rw [if_pos hxy, if_pos hxy, foldl_swapStep_map_succ, hx]
      · rw [if_neg (not_lt.mpr hxy), if_neg (not_lt.mpr hxy), foldl_swapStep_map_succ, hy]

theorem bpassN_perm : ∀ (n : ℕ) (l : List ℚ), (mlib.bpassN n l).Perm l := by
  intro n
  induction n with
  | zero => intro l; rfl
  | succ n ih =>
    intro l
    match l with
    | [] => rfl
    | [x] => rfl
    | x :: y :: rest =>
      simp only [mlib.bpassN]
      split
      · exact ((ih (x :: rest)).cons y).trans (List.Perm.swap x y rest)
      · exact (ih (y :: rest)).cons x

theorem bpassN_length (n : ℕ) (l : List ℚ) : (mlib.bpassN n l).length = l.length :=
  (bpassN_perm n l).length_eq

theorem bpassN_last_max : ∀ (n : ℕ) (x : ℚ) (l : List ℚ), l.length ≤ n →
    ∃ l2 M, mlib.bpassN n (x :: l) = l2 ++ [M] ∧
      ∀ z ∈ mlib.bpassN n (x :: l), z ≤ M := by
  intro n x l
  induction l generalizing x n with
  | nil =>
    intro _
    refine ⟨[], x, by simp [bpassN_singleton], ?_⟩
    intro z hz
    rw [bpassN_singleton] at hz
    simp at hz
    simp [hz]
  | cons y rest ih =>
    intro hlen
    match n with
    | n + 1 =>
      simp only [mlib.bpassN]
      split
      · next hxy =>
        obtain ⟨l2, M, heq, hmax⟩ := ih n x (by simpa using hlen)
        have hxM : x ≤ M := hmax x (((bpassN_perm n (x :: rest)).mem_iff).mpr (by simp))
        refine ⟨y :: l2, M, by rw [heq]; rfl, ?_⟩
        intro z hz
        rcases List.mem_cons.mp hz with rfl | hz2
        · linarith
        · exact hmax z hz2
      · next hxy =>
        obtain ⟨l2, M, heq, hmax⟩ := ih n y (by simpa using hlen)
        have hyM : y ≤ M := hmax y (((bpassN_perm n (y :: rest)).mem_iff).mpr (by simp))
        refine ⟨x :: l2, M, by rw [heq]; rfl, ?_⟩
        intro z hz
        rcases List.mem_cons.mp hz with rfl | hz2
        · push_neg at hxy
          linarith
        · exact hmax z hz2

theorem bpassN_append_max : ∀ (n : ℕ) (l : List ℚ) (M : ℚ), (∀ z ∈ l, z ≤ M) →
    mlib.bpassN n (l ++ [M]) = mlib.bpassN n l ++ [M] := by
  intro n
  induction n with
  | zero => intro l M _; rfl
  | succ n ih =>
    intro l M hM
    match l with
    | [] => simp [bpassN_singleton, bpassN_nil]
    | [x] =>
      have hx : x ≤ M := hM x (by simp)
      simp only [List.cons_append, List.nil_append, mlib.bpassN]
      rw [if_neg (not_lt.mpr hx), bpassN_singleton]
    | x :: y :: rest =>
      simp only [List.cons_append, mlib.bpassN]
      split
      · next hxy =>
        have : mlib.bpassN n ((x :: rest) ++ [M]) = mlib.bpassN n (x :: rest) ++ [M] :=
          ih (x :: rest) M (fun z hz => hM z (by
            rcases List.mem_cons.mp hz with rfl | h2
            · simp
            · simp [h2]))
        rw [List.cons_append] at this
        simp only [List.append_eq]
        rw [this]
        rfl
      · next hxy =>
        have : mlib.bpassN n ((y :: rest) ++ [M]) = mlib.bpassN n (y :: rest) ++ [M] :=
          ih (y :: rest) M (fun z hz => hM z (by
            rcases List.mem_cons.mp hz with rfl | h2
            · simp
            · simp [h2]))
        rw [List.cons_append] at this
        simp only [List.append_eq]
        rw [this]
        rfl

theorem bubbleIter_perm : ∀ (m : ℕ) (l : List ℚ), (mlib.bubbleIter m l).Perm l := by
  intro m
  induction m with
  | zero => intro l; rfl
  | succ m ih =>
    intro l
    exact (ih (mlib.bpassN (m + 1) l)).trans (bpassN_perm (m + 1) l)

theorem bubbleIter_append_max : ∀ (m : ℕ) (l : List ℚ) (M : ℚ), (∀ z ∈ l, z ≤ M) →
    mlib.bubbleIter m (l ++ [M]) = mlib.bubbleIter m l ++ [M] := by
  intro m
  induction m with
  | zero => intro l M _; rfl
  | succ m ih =>
    intro l M hM
    show mlib.bubbleIter m (mlib.bpassN (m + 1) (l ++ [M])) = _
    rw [bpassN_append_max (m + 1) l M hM]
    exact ih (mlib.bpassN (m + 1) l) M
      (fun z hz => hM z (((bpassN_perm (m + 1) l).mem_iff).mp hz))

theorem bubbleIter_sorted : ∀ (m : ℕ) (l : List ℚ), l.length ≤ m + 1 →
    (mlib.bubbleIter m l).Sorted (· ≤ ·) := by
  intro m
  induction m with
  | zero =>
    intro l hl
    match l with
    | [] => exact List.sorted_nil
    | [x] => exact List.sorted_singleton x
    | x :: y :: rest => simp at hl
  | succ m ih =>
    intro l hl
    match l with
    | [] =>
      show (mlib.bubbleIter m (mlib.bpassN (m + 1) [])).Sorted (· ≤ ·)
      rw [bpassN_nil]
      exact ih [] (by simp)
    | [x] =>
      show (mlib.bubbleIter m (mlib.bpassN (m + 1) [x])).Sorted (· ≤ ·)
      rw [bpassN_singleton]
      exact ih [x] (by simp)
    | x :: y :: rest =>
      obtain ⟨l2, M, heq, hmax⟩ := bpassN_last_max (m + 1) x (y :: rest) (by simpa using hl)
      show (mlib.bubbleIter m (mlib.bpassN (m + 1) (x :: y :: rest))).Sorted (· ≤ ·)
      rw [heq]
      have hl2max : ∀ z ∈ l2, z ≤ M := by
        intro z hz
        exact hmax z (by rw [heq]; exact List.mem_append_left [M] hz)
      rw [bubbleIter_append_max m l2 M hl2max]
      have hlen2 : l2.length ≤ m + 1 := by
        have := bpassN_length (m + 1) (x :: y :: rest)
        rw [heq] at this
        simp at this
        simp at hl
        omega
      have hsorted := ih l2 hlen2
      show List.Pairwise (· ≤ ·) (mlib.bubbleIter m l2 ++ [M])
      rw [List.pairwise_append]
      refine ⟨hsorted, List.pairwise_singleton _ _, ?_⟩
      intro a ha b hb
      rw [List.mem_singleton] at hb
      subst hb
      exact hl2max a (((bubbleIter_perm m l2).mem_iff).mp ha)

theorem bubbleSeg_diag : ∀ (c : ℕ) (l : List ℚ), mlib.bubbleSeg c c l = mlib.bubbleIter c l := by
  intro c
  induction c with
  | zero => intro l; rfl
  | succ c ih =>
    intro l
    show mlib.bubbleSeg (c + 1 - 1) c (mlib.bpassN (c + 1) l) = _
    rw [show c + 1 - 1 = c from rfl, ih]
    rfl

theorem foldRange_eq_bubbleSeg : ∀ (k c : ℕ) (l : List ℚ), k ≤ c → c < l.length →
    (List.range k).foldl (fun acc i => mlib.innerPass acc (c - i)) l = mlib.bubbleSeg c k l := by
  intro k
  induction k with
  | zero => intro c l _ _; rfl
  | succ k ih =>
    intro c l hk hc
    rw [List.range_succ_eq_map, List.foldl_cons, List.foldl_map]
    have h0 : mlib.innerPass l (c - 0) = mlib.bpassN c l := by
      rw [Nat.sub_zero]
      exact innerPass_eq_bpassN c l hc
    rw [h0]
    have hfun : (fun (acc : List ℚ) (i : ℕ) => mlib.innerPass acc (c - Nat.succ i))
        = fun acc i => mlib.innerPass acc (c - 1 - i) := by
      funext acc i
      congr 1
      omega
    rw [hfun]
    have hlen : c - 1 < (mlib.bpassN c l).length := by
      rw [bpassN_length]
      omega
    rw [ih (c - 1) (mlib.bpassN c l) (by omega) hlen]
    show mlib.bubbleSeg (c - 1) k (mlib.bpassN c l) = mlib.bubbleSeg c (k + 1) l
    rfl

theorem median_eval (l : List ℚ) (hl : l ≠ []) :
    mlib.median l = .ok
      ((List.range (l.length - 1)).foldl (fun acc i => mlib.innerPass acc (l.length - i - 1)) l,
       if l.length % 2 = 0 then
         (((List.range (l.length - 1)).foldl
             (fun acc i => mlib.innerPass acc (l.length - i - 1)) l).getD (l.length / 2 - 1) 0 +
          ((List.range (l.length - 1)).foldl
             (fun acc i => mlib.innerPass acc (l.length - i - 1)) l).getD (l.length / 2) 0) / 2
       else ((List.range (l.length - 1)).foldl
             (fun acc i => mlib.innerPass acc (l.length - i - 1)) l).getD (l.length / 2) 0) := by
  have hlen : 0 < l.length := List.length_pos.mpr hl
  have hfin : mlib.is_finite (.num (l.length : ℚ)) = .ok true :=
    mlib_is_finite_num (by
      have : l.length ≠ 0 := hlen.ne'
      exact_mod_cast this)
  have hd : decide (0 < l.length) = true := decide_eq_true hlen
  simp only [mlib.median, hfin, hd, Bool.and_self, Bool.and_true, mlib.pyassert, if_pos,
    Bind.bind, Except.bind, Pure.pure, Except.pure]
  split <;> rfl

example : mlib.median [1, 3, 2] = .ok ([1, 2, 3], 2) := by
  rw [median_eval _ (by simp)]
  norm_num [List.range_succ, mlib.innerPass, mlib.swapStep]

example : mlib.median [1, 2, 3, 4] = .ok ([1, 2, 3, 4], 5/2) := by
  rw [median_eval _ (by simp)]
  norm_num [List.range_succ, mlib.innerPass, mlib.swapStep]

/-- C10: for every non-empty list of finite floats, `median` sorts the
caller's list in place into nondecreasing order (the returned state is a
permutation of the original elements, sorted), and returns the middle
element of the sorted list for odd length, or the average of the two
middle elements for even length; in particular `median([1,3,2]) == 2` and
`median([1,2,3,4]) == 2.5`. -/
theorem claim_C10_median :
    (∀ l : List ℚ, l ≠ [] →
      ∃ s : List ℚ, s.Perm l ∧ s.Sorted (· ≤ ·) ∧
        mlib.median l = .ok (s,
          if l.length % 2 = 0 then (s.getD (l.length / 2 - 1) 0 + s.getD (l.length / 2) 0) / 2
          else s.getD (l.length / 2) 0)) ∧
    mlib.median [1, 3, 2] = .ok ([1, 2, 3], 2) ∧
    mlib.median [1, 2, 3, 4] = .ok ([1, 2, 3, 4], 5/2) := by
  refine ⟨?_, ?_, ?_⟩
  · intro l hl
    have hlen : 0 < l.length := List.length_pos.mpr hl
    have hfun : (fun (acc : List ℚ) (i : ℕ) => mlib.innerPass acc (l.length - i - 1))
        = fun acc i => mlib.innerPass acc ((l.length - 1) - i) := by
      funext acc i
      congr 1
      omega
    have hseq : (List.range (l.length - 1)).foldl
        (fun acc i => mlib.innerPass acc (l.length - i - 1)) l
        = mlib.bubbleIter (l.length - 1) l := by
      rw [hfun, foldRange_eq_bubbleSeg (l.length - 1) (l.length - 1) l le_rfl (by omega),
        bubbleSeg_diag]
    refine ⟨mlib.bubbleIter (l.length - 1) l, bubbleIter_perm _ l,
      bubbleIter_sorted _ l (by omega), ?_⟩
    rw [median_eval l hl, hseq]
  · rw [median_eval _ (by simp)]
    norm_num [List.range_succ, mlib.innerPass, mlib.swapStep]
  · rw [median_eval _ (by simp)]
    norm_num [List.range_succ, mlib.innerPass, mlib.swapStep]

/-- C10 (witness): the claim at the concrete list `[3, 1, 2]`. -/
theorem claim_C10_witness :
    ∃ s : List ℚ, s.Perm [3, 1, 2] ∧ s.Sorted (· ≤ ·) ∧
      mlib.median [3, 1, 2] = .ok (s,
        if ([3, 1, 2] : List ℚ).length % 2 = 0 then
          (s.getD (([3, 1, 2] : List ℚ).length / 2 - 1) 0 +
            s.getD (([3, 1, 2] : List ℚ).length / 2) 0) / 2
        else s.getD (([3, 1, 2] : List ℚ).length / 2) 0) :=
  claim_C10_median.1 [3, 1, 2] (by simp)

/-!
## The bit codec round trip (claim C3)
-/

theorem zpow_sub_nat (a b : ℕ) : (2:ℚ) ^ ((a:ℤ) - (b:ℤ)) = 2 ^ a / 2 ^ b := by
  rw [zpow_sub₀ (by norm_num : (2:ℚ) ≠ 0), zpow_natCast, zpow_natCast]

theorem normalMag_pos (e m : ℕ) : 0 < ((2^23 + m : ℕ) : ℚ) * 2 ^ e / 2 ^ 150 := by
  positivity

theorem normalMag_ilog2 (e m : ℕ) (hm : m < 2^23) :
    mlib.ilog2 (((2^23 + m : ℕ) : ℚ) * 2 ^ e / 2 ^ 150) = (e:ℤ) - 127 := by
  apply ilog2_unique _ _ (normalMag_pos e m)
  · rw [show (e:ℤ) - 127 = ((e + 23 : ℕ) : ℤ) - ((150 : ℕ) : ℤ) by push_cast; ring,
      zpow_sub_nat]
    apply div_le_div_of_nonneg_right ?_ (by positivity)
    · rw [pow_add]
      have h23 : ((2:ℚ))^23 ≤ ((2^23 + m : ℕ) : ℚ) := by
        push_cast
        linarith
      nlinarith [pow_pos (show (0:ℚ) < 2 by norm_num) e, h23]
  · rw [show (e:ℤ) - 127 + 1 = ((e + 24 : ℕ) : ℤ) - ((150 : ℕ) : ℤ) by push_cast; ring,
      zpow_sub_nat]
    apply div_lt_div_of_pos_right ?_ (by positivity)
    · rw [pow_add]
      have h24 : ((2^23 + m : ℕ) : ℚ) < (2:ℚ)^24 := by
        have hmq : (m:ℚ) < 8388608 := by exact_mod_cast (show m < 8388608 by omega)
        push_cast
        norm_num
        linarith
      nlinarith [pow_pos (show (0:ℚ) < 2 by norm_num) e, h24]

theorem normalMag_shift (e m : ℕ) :
    (((2^23 + m : ℕ) : ℚ) * 2 ^ e / 2 ^ 150) * (2:ℚ) ^ ((23:ℤ) - ((e:ℤ) - 127))
      = ((2^23 + m : ℕ) : ℚ) := by
  rw [show (23:ℤ) - ((e:ℤ) - 127) = ((150 : ℕ) : ℤ) - ((e : ℕ) : ℤ) by push_cast; ring,
    zpow_sub_nat]
  have h1 : ((2:ℚ) ^ e) ≠ 0 := by positivity
  have h2 : ((2:ℚ) ^ 150) ≠ 0 := by positivity
  field_simp

theorem normalMag_rne (e m : ℕ) :
    mlib.rne ((((2^23 + m : ℕ) : ℚ) * 2 ^ e / 2 ^ 150) * (2:ℚ) ^ ((23:ℤ) - ((e:ℤ) - 127)))
      = ((2^23 + m : ℕ) : ℤ) := by
  rw [normalMag_shift e m]
  apply rne_of_between
  · push_cast
    linarith
  · push_cast
    linarith

theorem subMag_pos (m : ℕ) (hm1 : 1 ≤ m) : 0 < ((m : ℚ) / 2 ^ 149) := by
  have : (0:ℚ) < (m:ℚ) := by exact_mod_cast hm1
  positivity

theorem subMag_ilog2_lt (m : ℕ) (hm1 : 1 ≤ m) (hm : m < 2^23) :
    mlib.ilog2 ((m : ℚ) / 2 ^ 149) < -126 := by
  obtain ⟨ha, hb⟩ := ilog2_spec _ (subMag_pos m hm1)
  have hlt : ((m : ℚ) / 2 ^ 149) < (2:ℚ) ^ (-126 : ℤ) := by
    rw [show (-126 : ℤ) = ((23 : ℕ) : ℤ) - ((149 : ℕ) : ℤ) by norm_num, zpow_sub_nat]
    apply div_lt_div_of_pos_right ?_ (by positivity)
    · exact_mod_cast hm
  have := lt_of_le_of_lt ha hlt
  have ho := (zpow_lt_zpow_iff_right₀ (by norm_num : (1:ℚ) < 2)).mp this
  omega

theorem subMag_rne (m : ℕ) :
    mlib.rne (((m : ℚ) / 2 ^ 149) * (2:ℚ) ^ ((149:ℤ))) = (m : ℤ) := by
  have h2 : ((2:ℚ) ^ 149) ≠ 0 := by positivity
  have he : ((m : ℚ) / 2 ^ 149) * (2:ℚ) ^ ((149:ℤ)) = (m : ℚ) := by
    rw [show ((149:ℤ)) = ((149:ℕ):ℤ) by norm_num, zpow_natCast]
    field_simp
  rw [he]
  apply rne_of_between
  · push_cast
    linarith
  · push_cast
    linarith

theorem packF32_fields (s e m : ℕ) (hs : s ≤ 1) (he1 : 1 ≤ e) (he : e ≤ 254) (hm : m < 2^23) :
    mlib.packF32 (mlib.valF32 s e m) = .ok (s * 2^31 + e * 2^23 + m) := by
  have hy : (0:ℚ) < ((2^23 + m : ℕ) : ℚ) * 2 ^ e / 2 ^ 150 := normalMag_pos e m
  have hne0 : ¬ (e = 0) := by omega
  have hnsub : ¬ ((e:ℤ) - 127 < -126) := by omega
  have hnover : ¬ ((127:ℤ) < (e:ℤ) - 127) := by omega
  have hncarry : ¬ (2^23 + m = 2^24) := by omega
  have htn : ((e:ℤ) - 127 + 127).toNat = e := by omega
  interval_cases s
  · have hval : mlib.valF32 0 e m = ((2^23 + m : ℕ) : ℚ) * 2 ^ e / 2 ^ 150 := by
      simp [mlib.valF32, if_neg hne0]
    rw [hval]
    simp only [mlib.packF32, if_neg hy.ne', if_neg (not_lt.mpr hy.le),
      normalMag_ilog2 e m hm, if_neg hnsub, shift2_eq, normalMag_rne e m,
      if_neg hncarry, if_neg hnover, Int.toNat_natCast, htn, Nat.add_sub_cancel_left]
  · have hval : mlib.valF32 1 e m = -(((2^23 + m : ℕ) : ℚ) * 2 ^ e / 2 ^ 150) := by
      simp [mlib.valF32, if_neg hne0]
    rw [hval]
    have hneg : (-(((2^23 + m : ℕ) : ℚ) * 2 ^ e / 2 ^ 150)) < 0 := by linarith
    have hne : ¬ (-(((2^23 + m : ℕ) : ℚ) * 2 ^ e / 2 ^ 150) = 0) := by linarith
    simp only [mlib.packF32, if_neg hne, if_pos hneg, neg_neg,
      normalMag_ilog2 e m hm, if_neg hnsub, shift2_eq, normalMag_rne e m,
      if_neg hncarry, if_neg hnover, Int.toNat_natCast, htn, Nat.add_sub_cancel_left]

theorem packF32_sub_fields (s m : ℕ) (hs : s ≤ 1) (hm1 : 1 ≤ m) (hm : m < 2^23) :
    mlib.packF32 (mlib.valF32 s 0 m) = .ok (s * 2^31 + m) := by
  have hy : (0:ℚ) < (m : ℚ) / 2 ^ 149 := subMag_pos m hm1
  have hlt : mlib.ilog2 ((m : ℚ) / 2 ^ 149) < -126 := subMag_ilog2_lt m hm1 hm
  have hsmall : (((m : ℚ) / 2 ^ 149) * (2:ℚ) ^ ((149:ℤ))) = (m:ℚ) := by
    rw [show ((149:ℤ)) = ((149:ℕ):ℤ) by norm_num, zpow_natCast]
    field_simp
  have hless : ((m:ℤ)).toNat < 2^23 := by
    rw [Int.toNat_natCast]
    omega
  interval_cases s
  · have hval : mlib.valF32 0 0 m = (m : ℚ) / 2 ^ 149 := by
      simp [mlib.valF32]
    rw [hval]
    simp only [mlib.packF32, if_neg hy.ne', if_neg (not_lt.mpr hy.le),
      if_pos hlt, shift2_eq, subMag_rne m, Int.toNat_natCast]
    rw [if_pos hm]
  · have hval : mlib.valF32 1 0 m = -((m : ℚ) / 2 ^ 149) := by
      simp [mlib.valF32]
    rw [hval]
    have hneg : (-((m : ℚ) / 2 ^ 149)) < 0 := by linarith
    have hne : ¬ (-((m : ℚ) / 2 ^ 149) = 0) := by linarith
    simp only [mlib.packF32, if_neg hne, if_pos hneg, neg_neg,
      if_pos hlt, shift2_eq, subMag_rne m, Int.toNat_natCast]
    rw [if_pos hm]

theorem toSigned_toUnsigned (b : ℕ) (hb : b < 2^32) :
    mlib.toUnsigned32 (mlib.toSigned32 b) = b := by
  unfold mlib.toSigned32 mlib.toUnsigned32
  split <;> omega

theorem decodeF32_fields (s e m : ℕ) (hs : s ≤ 1) (he : e ≤ 254) (hm : m < 2^23) :
    mlib.decodeF32 (s * 2^31 + e * 2^23 + m) = .num (mlib.valF32 s e m) := by
  unfold mlib.decodeF32
  have h1 : (s * 2^31 + e * 2^23 + m) / 2^31 % 2 = s := by omega
  have h2 : (s * 2^31 + e * 2^23 + m) / 2^23 % 2^8 = e := by omega
  have h3 : (s * 2^31 + e * 2^23 + m) % 2^23 = m := by omega
  rw [h1, h2, h3, if_neg (by omega : ¬ e = 255)]

theorem valF32_ne_zero (s e m : ℕ) (hnz : ¬ (e = 0 ∧ m = 0)) :
    mlib.valF32 s e m ≠ 0 := by
  unfold mlib.valF32
  apply mul_ne_zero
  · split <;> norm_num
  · split
    · next he =>
      have hm1 : 1 ≤ m := by omega
      have : (0:ℚ) < (m:ℚ) / 2 ^ 149 := subMag_pos m hm1
      linarith
    · have := normalMag_pos e m
      linarith

/-- C3 (amended): for every finite 32-bit-representable float other than
the two zeros — given by fields `s ≤ 1`, `e ≤ 254`, `m < 2^23` with
`(e, m) ≠ (0, 0)` — the round trip is exact:
`to_float(to_bits(x)) == x`.  (At `x = ±0` the round trip instead raises
`ZeroDivisionError`, see the counterexample.) -/
theorem claim_C3_amended (s e m : ℕ) (hs : s ≤ 1) (he : e ≤ 254) (hm : m < 2^23)
    (hnz : ¬ (e = 0 ∧ m = 0)) :
    (mlib.to_bits (.num (mlib.valF32 s e m)) >>= mlib.to_float)
      = .ok (.num (mlib.valF32 s e m)) := by
  set b : ℕ := s * 2^31 + e * 2^23 + m with hbdef
  have hblt : b < 2^32 := by omega
  have hto : mlib.to_bits (.num (mlib.valF32 s e m)) = .ok (mlib.toSigned32 b) := by
    unfold mlib.to_bits
    rw [mlib_is_finite_num (valF32_ne_zero s e m hnz)]
    simp only [Bind.bind, Except.bind, mlib.pyassert, if_pos]
    rcases Nat.lt_or_ge e 1 with he0 | he1
    · have he0' : e = 0 := by omega
      subst he0'
      rw [packF32_sub_fields s m hs (by omega) hm]
      simp only [Except.map]
      rw [hbdef]
      norm_num
    · rw [packF32_fields s e m hs he1 he hm]
      simp only [Except.map]
  rw [hto]
  have hbind : (Except.ok (mlib.toSigned32 b) >>= mlib.to_float) = mlib.to_float (mlib.toSigned32 b) := by
    simp [Bind.bind, Except.bind]
  rw [hbind]
  have hsig0 : mlib.toSigned32 b ≠ 0 := by
    unfold mlib.toSigned32
    split <;> omega
  have hsig_ne : ((mlib.toSigned32 b : ℤ) : ℚ) ≠ 0 := by exact_mod_cast hsig0
  have hrange : ¬ (mlib.toSigned32 b < -(2^31) ∨ (2:ℤ)^31 ≤ mlib.toSigned32 b) := by
    unfold mlib.toSigned32
    split <;> omega
  unfold mlib.to_float
  rw [mlib_is_finite_num hsig_ne]
  simp only [Bind.bind, Except.bind, mlib.pyassert, if_pos]
  rw [if_neg hrange, toSigned_toUnsigned b hblt, hbdef, decodeF32_fields s e m hs he hm]
  rfl

/-- C3 (counterexample): `0` is a finite 32-bit-representable float
(fields `(0, 0, 0)`), but `to_float(to_bits(0))` is not `0` — `to_bits(0)`
already raises `ZeroDivisionError` from `is_finite(0)`'s `0/0`. -/
theorem claim_C3_counterexample :
    mlib.valF32 0 0 0 = 0 ∧
    mlib.to_bits (.num (mlib.valF32 0 0 0)) = .error .divByZero ∧
    (mlib.to_bits (.num (mlib.valF32 0 0 0)) >>= mlib.to_float) = .error .divByZero := by
  have h0 : mlib.valF32 0 0 0 = 0 := by norm_num [mlib.valF32]
  have h1 : mlib.to_bits (.num (mlib.valF32 0 0 0)) = .error .divByZero := by
    rw [h0]
    simp [mlib.to_bits, mlib_is_finite_zero, Bind.bind, Except.bind]
  refine ⟨h0, h1, ?_⟩
  rw [h1]
  simp [Bind.bind, Except.bind]

/-- C3 (witness): the amended round trip at `x = 1.0`
(fields `(0, 127, 0)`). -/
theorem claim_C3_witness :
    (mlib.to_bits (.num (mlib.valF32 0 127 0)) >>= mlib.to_float)
      = .ok (.num (mlib.valF32 0 127 0)) :=
  claim_C3_amended 0 127 0 (by norm_num) (by norm_num) (by norm_num) (by simp)
